import Mathlib

/-
Verification of the jocker orchestrator against its specification.

The definitions below are a shallow embedding of the Rust sources:
  crates/jocker-lib/src/common.rs    (Process, ProcessState, Stack)
  crates/jocker-lib/src/state.rs     (State: filter_processes, get_stack,
                                      set_status, set_pid, refresh,
                                      reconcile_pids,
                                      recurse_inherited_processes)
  crates/jocker-lib/src/database.rs  (Database::set_stacks and the table
                                      schema with ON DELETE CASCADE)
  crates/jocker-lib/src/start.rs     (Start::build, Start::run, exec,
                                      envsubst)
  crates/jocker-lib/src/config.rs    (ConfigFile and the serde derive
                                      semantics of its field attributes)

Rust HashMap and HashSet values are embedded as association lists and
lists; where the source relies on key uniqueness (SQL primary keys,
HashMap keys) the theorems carry the corresponding Nodup hypotheses.
SQL point updates (UPDATE ... WHERE name = x) act on every row whose
name matches, exactly as the embedded functions do.
-/

set_option autoImplicit false

namespace Jocker

/-- Process lifecycle states, from common.rs. The source enum is
Stopped, Building, Running, Healthy. -/
inductive ProcessState where
  | Stopped
  | Building
  | Running
  | Healthy
deriving DecidableEq, Repr

/-- A supervisable process record, from common.rs. The env map is
embedded as an association list. -/
structure Process where
  name : String
  binary : String
  state : ProcessState
  pid : Option Nat
  args : List String
  cargoArgs : List String
  env : List (String × String)
deriving DecidableEq, Repr

/-- A named group of processes, from common.rs. The two HashSet fields
are embedded as lists. -/
structure Stack where
  name : String
  processes : List String
  inheritedProcesses : List String
deriving DecidableEq, Repr

/-- A stack as declared in the config file, from config.rs. -/
structure ConfigStack where
  inherits : List String
  processes : List String
deriving DecidableEq, Repr

/-- Domain errors, from error.rs InnerError. Only the variants the
verified operations produce are embedded; the message payload of the
Start variant is elided. -/
inductive JockerError where
  | processNotFound (names : List String)
  | stackNotFound (name : String)
  | recursionLoop
  | recursionDeepnessTooHigh
  | startFailed
deriving DecidableEq, Repr

/-! ## Variable expansion: envsubst (start.rs lines 129 to 162)

The source scans the argument with the regex for a dollar sign, an
opening brace, a run of characters from the class letters, digits,
dash, underscore, colon, slash, dot and square brackets, and a closing
brace.  Matched placeholders are replaced; the characters outside
placeholders are kept via the capture ranges.  Strings are embedded as
lists of characters. -/

/-- Membership in the regex character class of the placeholder name. -/
def isSubstChar (c : Char) : Bool :=
  decide (('a' ≤ c ∧ c ≤ 'z') ∨ ('A' ≤ c ∧ c ≤ 'Z') ∨ ('0' ≤ c ∧ c ≤ '9') ∨
    c = '-' ∨ c = '_' ∨ c = ':' ∨ c = '/' ∨ c = '.' ∨ c = '[' ∨ c = ']')

/-- Split a list into its longest leading run of placeholder-class
characters and the remainder; this models how the regex consumes the
capture group. -/
def spanSubst : List Char → List Char × List Char
  | [] => ([], [])
  | c :: cs =>
    if isSubstChar c then
      let p := spanSubst cs
      (c :: p.1, p.2)
    else
      ([], c :: cs)

/-- Detect an occurrence of the two-character separator colon dash,
which the source uses with split. -/
def hasColonDash : List Char → Bool
  | ':' :: '-' :: _ => true
  | _ :: rest => hasColonDash rest
  | [] => false

/-- The Rust split on the two-character separator colon dash,
restricted to lists of characters. -/
def splitColonDash : List Char → List (List Char)
  | [] => [[]]
  | ':' :: '-' :: rest => [] :: splitColonDash rest
  | c :: rest =>
    match splitColonDash rest with
    | [] => [[c]]
    | h :: t => (c :: h) :: t

/-- Lookup in the environment map, embedded as an association list over
character lists. -/
def lookupVar : List (List Char × List Char) → List Char → Option (List Char)
  | [], _ => none
  | (k, v) :: rest, name => if k = name then some v else lookupVar rest name

/-- The replacement computed for one captured placeholder name: split
the name on the colon dash separator, look the first part up in the
environment, else fall back to the second part, else empty. This is the
body of the capture loop in envsubst. -/
def substValue (env : List (List Char × List Char)) (name : List Char) : List Char :=
  let parts := splitColonDash name
  let varName := parts.headD []
  let dflt := parts.get? 1
  match lookupVar env varName, dflt with
  | some v, _ => v
  | none, some d => d
  | none, none => []

/-- Variable expansion over an argument string, from start.rs. Scans
for a placeholder; on a full match the replacement from substValue is
emitted and scanning resumes after the closing brace, otherwise the
scanned characters are kept verbatim and scanning resumes at the first
position where a new match could start. -/
def envsubst (env : List (List Char × List Char)) : List Char → List Char
  | [] => []
  | '$' :: '{' :: rest =>
    match hs : spanSubst rest with
    | (name, '}' :: tail) => substValue env name ++ envsubst env tail
    | (name, rest2) => '$' :: '{' :: (name ++ envsubst env rest2)
  | c :: rest => c :: envsubst env rest
termination_by l => l.length
decreasing_by
  · have h1 : ∀ l : List Char, (spanSubst l).2.length ≤ l.length := by
      intro l
      induction l with
      | nil => simp [spanSubst]
      | cons c cs ih =>
        simp only [spanSubst]
        split
        · exact Nat.le_succ_of_le ih
        · simp
    have h2 := h1 rest
    rw [hs] at h2
    simp at h2 ⊢
    omega
  · have h1 : ∀ l : List Char, (spanSubst l).2.length ≤ l.length := by
      intro l
      induction l with
      | nil => simp [spanSubst]
      | cons c cs ih =>
        simp only [spanSubst]
        split
        · exact Nat.le_succ_of_le ih
        · simp
    have h2 := h1 rest
    rw [hs] at h2
    simp at h2 ⊢
    omega
  · simp

/-- A string contains no placeholder: mirrors the scanning structure of
envsubst, returning true exactly when the regex would find a match. -/
def hasPlaceholder : List Char → Bool
  | [] => false
  | '$' :: '{' :: rest =>
    match hs : spanSubst rest with
    | (_, '}' :: _) => true
    | (_, rest2) => hasPlaceholder rest2
  | _ :: rest => hasPlaceholder rest
termination_by l => l.length
decreasing_by
  · have h1 : ∀ l : List Char, (spanSubst l).2.length ≤ l.length := by
      intro l
      induction l with
      | nil => simp [spanSubst]
      | cons c cs ih =>
        simp only [spanSubst]
        split
        · exact Nat.le_succ_of_le ih
        · simp
    have h2 := h1 rest
    rw [hs] at h2
    simp at h2 ⊢
    omega
  · simp

/-! ## Stack inheritance resolver
(state.rs lines 687 to 714; the identical function also appears in the
older tree at refresh.rs lines 214 to 241) -/

/-- The walk depth cap, from common.rs line 15. -/
def MAX_RECURSION_LEVEL : Nat := 10

/-- Lookup in the config stack map, embedded as an association list. -/
def lookupStack : List (String × ConfigStack) → String → Option ConfigStack
  | [], _ => none
  | (n, s) :: rest, name => if n = name then some s else lookupStack rest name

/-- The recursive inheritance walk, from state.rs. The mutable browsed
set threaded through the whole walk is embedded as a list that is
returned together with the accumulated process names. The source
extends a HashSet of process names; the embedding appends, which makes
the same control-flow decisions because the accumulator never feeds
back into them. -/
def recurse_inherited_processes (recursionLevel : Nat) (stackNames : List String)
    (stackMap : List (String × ConfigStack)) (browsedStacks : List String)
    (inheritedProcesses : List String) :
    Except JockerError (List String × List String) :=
  if recursionLevel > MAX_RECURSION_LEVEL then
    .error .recursionDeepnessTooHigh
  else
    match stackNames with
    | [] => .ok (browsedStacks, inheritedProcesses)
    | stackName :: restNames =>
      if stackName ∈ browsedStacks then .error .recursionLoop
      else
        match lookupStack stackMap stackName with
        | none => .error (.stackNotFound stackName)
        | some stack =>
          match recurse_inherited_processes (recursionLevel + 1) stack.inherits stackMap
              (stackName :: browsedStacks) (inheritedProcesses ++ stack.processes) with
          | .error e => .error e
          | .ok (browsed2, inherited2) =>
            recurse_inherited_processes recursionLevel restNames stackMap browsed2 inherited2
termination_by (MAX_RECURSION_LEVEL + 1 - recursionLevel, stackNames.length)
decreasing_by
  · apply Prod.Lex.left
    omega
  · apply Prod.Lex.right
    simp

/-- Resolution of the inherited processes of one stack as performed by
refresh_stacks in state.rs: the walk starts at level zero on the
inherits list of the stack, with a fresh browsed set. -/
def resolve_inherited (stackMap : List (String × ConfigStack)) (configStack : ConfigStack) :
    Except JockerError (List String × List String) :=
  recurse_inherited_processes 0 configStack.inherits stackMap [] []

/-! ## The store and its operations
(state.rs and database.rs; the SQL tables are embedded as lists) -/

/-- The persisted relational state: the process table, the stack table
and the two stack-process relation tables of database.rs. -/
structure Store where
  processes : List Process
  stackTable : List String
  relStackProcess : List (String × String)
  relStackInherited : List (String × String)
deriving DecidableEq, Repr

/-- Point update of the state column, the UPDATE statement of
set_status in state.rs (set_process_state in database.rs): every row
whose name matches is updated. -/
def set_status (procs : List Process) (name : String) (st : ProcessState) : List Process :=
  procs.map fun p => if p.name = name then { p with state := st } else p

/-- Point update of the pid column, the UPDATE statement of set_pid in
state.rs (set_process_pid in database.rs). -/
def set_pid (procs : List Process) (name : String) (pid : Option Nat) : List Process :=
  procs.map fun p => if p.name = name then { p with pid := pid } else p

/-- The per-process pid reconciliation of refresh, from state.rs lines
841 to 851: only a process with a stored pid is touched, and only when
that pid is not among the pids reported by the operating system ps
command; then its state becomes Stopped and its pid null. -/
def reconcile_pids (userPids : List Nat) (p : Process) : Process :=
  match p.pid with
  | some pid => if pid ∈ userPids then p else { p with state := .Stopped, pid := none }
  | none => p

/-- The unconditional first phase of refresh, from state.rs lines 523
to 528: reconcile every stored process against the live pid table. The
per-row database writes amount to this map because process names are a
primary key. -/
def refresh_reconcile (userPids : List Nat) (procs : List Process) : List Process :=
  procs.map (reconcile_pids userPids)

/-- The names a stack row references, direct then inherited, in the
order the source chains the two iterators. -/
def stackReferencedNames (s : Stack) : List String :=
  s.processes ++ s.inheritedProcesses

/-- Insertion of one stack row and its relation rows, the three INSERT
statements in the loop body of set_stacks in database.rs. -/
def insert_stack (st : Store) (s : Stack) : Store :=
  { st with
    stackTable := st.stackTable ++ [s.name]
    relStackProcess := st.relStackProcess ++ s.processes.map (fun p => (s.name, p))
    relStackInherited := st.relStackInherited ++ s.inheritedProcesses.map (fun p => (s.name, p)) }

/-- The DELETE FROM stack statement at the top of set_stacks: the
declared ON DELETE CASCADE rules also clear both relation tables. -/
def clear_stacks (st : Store) : Store :=
  { st with stackTable := [], relStackProcess := [], relStackInherited := [] }

/-- The per-stack loop of set_stacks in database.rs: validate the
referenced names of the current stack, and on failure return the error
together with the store as already mutated; otherwise insert the rows
and continue. -/
def set_stacks_loop (procNames : List String) :
    List Stack → Store → Store × Option JockerError
  | [], st => (st, none)
  | stack :: rest, st =>
    let missing := (stackReferencedNames stack).filter (fun p => p ∉ procNames)
    if missing = [] then set_stacks_loop procNames rest (insert_stack st stack)
    else (st, some (.processNotFound missing))

/-- Database set_stacks, lines 357 to 420: read the process names, then
truncate the stack table, then run the per-stack validate-and-insert
loop. No transaction encloses the statements, so the writes made before
a validation failure persist. -/
def set_stacks (st : Store) (stackList : List Stack) : Store × Option JockerError :=
  set_stacks_loop (st.processes.map (·.name)) stackList (clear_stacks st)

/-- State get_stack, from state.rs lines 403 to 433: look the name up
in the stack table, then collect the relation rows of that stack into a
set (embedded as dedup); the inherited field of the result is left
empty by this variant. -/
def get_stack (st : Store) (stack : String) : Except JockerError Stack :=
  if stack ∈ st.stackTable then
    .ok { name := stack
          processes := (((st.relStackProcess.filter (fun r => r.1 = stack)).map (·.2)).dedup)
          inheritedProcesses := [] }
  else .error (.stackNotFound stack)

/-- State filter_processes, from state.rs lines 263 to 290. -/
def filter_processes (st : Store) (currentStack : Option String)
    (processNames : List String) : Except JockerError (List Process) :=
  let expectedE : Except JockerError (List String) :=
    match processNames, currentStack with
    | _ :: _, _ => Except.ok processNames
    | [], some s => Except.map (fun stk => stk.processes) (get_stack st s)
    | [], none => Except.ok []
  match expectedE with
  | .error e => .error e
  | .ok expected =>
    if expected = [] then .ok st.processes
    else
      let procs := st.processes.filter (fun p => p.name ∈ expected)
      if expected.length ≠ procs.length then
        .error (.processNotFound
          (processNames.dedup.filter (fun n => n ∉ procs.map (·.name))))
      else .ok procs

/-! ## The start operation (start.rs) -/

/-- Outcome of the single cargo build subprocess, the only part of the
toolchain visible to Start::build: either the spawn itself failed, or
the command ran and exited with the given success flag. -/
inductive BuildResult where
  | spawnError
  | exited (success : Bool)
deriving DecidableEq, Repr

/-- Start::build, lines 29 to 64: on a non-zero exit the function
returns an error without touching the store; when the spawn itself
fails it reverts every selected process to Stopped and returns
success. -/
def start_build (procs : List Process) (selected : List Process) (br : BuildResult) :
    List Process × Option JockerError :=
  match br with
  | .exited true => (procs, none)
  | .exited false => (procs, some .startFailed)
  | .spawnError => (selected.foldl (fun acc p => set_status acc p.name .Stopped) procs, none)

/-- Start::run, lines 66 to 106, for one process snapshot: skip unless
the snapshot state is Stopped or Building; otherwise submit to the
scheduler (modelled as a function from label to an optional task
handle), and on success write state Running and then the pid. The
returned list carries the labels successfully launched. A scheduler
failure aborts run before any store write. -/
def start_run (sched : String → Option Nat) (procs : List Process) (p : Process) :
    List Process × List String :=
  if p.state ≠ ProcessState.Stopped ∧ p.state ≠ ProcessState.Building then (procs, [])
  else
    match sched p.name with
    | some handle =>
      (set_pid (set_status procs p.name .Running) p.name (some handle), [p.name])
    | none => (procs, [])

/-- The launch loop of exec: run every selected process in order,
collecting the launched labels; per-process errors are logged and do
not stop the siblings. -/
def start_run_all (sched : String → Option Nat) (procs : List Process)
    (selected : List Process) : List Process × List String :=
  selected.foldl
    (fun acc p =>
      let r := start_run sched acc.1 p
      (r.1, acc.2 ++ r.2))
    (procs, [])

/-- Start exec, lines 109 to 127: filter the selection, mark every
selected process Building, build once, and if build returned no error
launch each process from its pre-Building snapshot. -/
def start_exec (sched : String → Option Nat) (br : BuildResult) (st : Store)
    (currentStack : Option String) (names : List String) :
    Store × Option JockerError × List String :=
  match filter_processes st currentStack names with
  | .error e => (st, some e, [])
  | .ok selected =>
    let marked := selected.foldl (fun acc p => set_status acc p.name .Building) st.processes
    let built := start_build marked selected br
    match built.2 with
    | some e => ({ st with processes := built.1 }, some e, [])
    | none =>
      let ran := start_run_all sched built.1 selected
      ({ st with processes := ran.1 }, none, ran.2)

/-! ## Config file loading (config.rs)

The serde derive on ConfigFile and its nested structures carries no
attribute rejecting unknown keys, so deserialization looks up the
declared fields and ignores every other key. The YAML value tree is
embedded as the Yaml type and the derived deserializers as the parse
functions below, one per structure, following the field attributes:
a field of Option type defaults to none when the key is absent or
null, a field marked serde default gets the default value when the key
is absent, and any other field is required. -/

/-- A parsed YAML value. -/
inductive Yaml where
  | str (s : String)
  | seq (items : List Yaml)
  | map (entries : List (String × Yaml))
  | nullv

/-- First entry with the given key in a YAML mapping. -/
def yamlLookup (entries : List (String × Yaml)) (key : String) : Option Yaml :=
  match entries with
  | [] => none
  | (k, v) :: rest => if k = key then some v else yamlLookup rest key

/-- Deserialize a string value. -/
def parseStr : Yaml → Option String
  | .str s => some s
  | _ => none

/-- Deserialize a sequence of strings, the Vec of Strings fields. -/
def parseStrList : Yaml → Option (List String)
  | .seq items => items.mapM parseStr
  | _ => none

/-- Deserialize a mapping of strings to strings, the env field. -/
def parseStrMap : Yaml → Option (List (String × String))
  | .map entries => entries.mapM (fun e => (parseStr e.2).map (fun v => (e.1, v)))
  | _ => none

/-- An Option field without further attributes: absent or null gives
none, otherwise the value must parse. -/
def parseOptionField {α : Type} (entries : List (String × Yaml)) (key : String)
    (parse : Yaml → Option α) : Option (Option α) :=
  match yamlLookup entries key with
  | none => some none
  | some .nullv => some none
  | some v => (parse v).map some

/-- A field with the serde default attribute: absent gives the default,
otherwise the value must parse. -/
def parseFieldD {α : Type} (entries : List (String × Yaml)) (key : String)
    (parse : Yaml → Option α) (dflt : α) : Option α :=
  match yamlLookup entries key with
  | none => some dflt
  | some v => parse v

/-- The declarative description of one process, from config.rs. -/
structure ConfigProcess where
  binary : Option String
  args : List String
  cargoArgs : List String
  env : List (String × String)
deriving DecidableEq, Repr

/-- The defaults applied to every process, from config.rs. -/
structure ConfigProcessDefault where
  cargoArgs : List String
deriving DecidableEq, Repr

/-- The default section, from config.rs. -/
structure ConfigDefault where
  stack : Option String
  process : Option ConfigProcessDefault
deriving DecidableEq, Repr

/-- The whole config file, from config.rs; the two maps are embedded as
association lists. -/
structure ConfigFile where
  dflt : Option ConfigDefault
  configStacks : List (String × ConfigStack)
  processes : List (String × ConfigProcess)
deriving DecidableEq, Repr

/-- Derived deserializer of ConfigProcess: binary is an Option field;
args, cargo_args and env carry the serde default attribute. -/
def parseConfigProcess : Yaml → Option ConfigProcess
  | .map es => do
    let binary ← parseOptionField es "binary" parseStr
    let args ← parseFieldD es "args" parseStrList []
    let cargoArgs ← parseFieldD es "cargo_args" parseStrList []
    let env ← parseFieldD es "env" parseStrMap []
    some ⟨binary, args, cargoArgs, env⟩
  | _ => none

/-- Derived deserializer of ConfigStack: inherits and processes carry
the serde default attribute. -/
def parseConfigStack : Yaml → Option ConfigStack
  | .map es => do
    let inherits ← parseFieldD es "inherits" parseStrList []
    let processes ← parseFieldD es "processes" parseStrList []
    some ⟨inherits, processes⟩
  | _ => none

/-- Derived deserializer of ConfigProcessDefault. -/
def parseConfigProcessDefault : Yaml → Option ConfigProcessDefault
  | .map es => do
    let cargoArgs ← parseFieldD es "cargo_args" parseStrList []
    some ⟨cargoArgs⟩
  | _ => none

/-- Derived deserializer of ConfigDefault: both fields are Option
fields. -/
def parseConfigDefault : Yaml → Option ConfigDefault
  | .map es => do
    let stack ← parseOptionField es "stack" parseStr
    let process ← parseOptionField es "process" parseConfigProcessDefault
    some ⟨stack, process⟩
  | _ => none

/-- Deserialize a mapping whose values parse with the given function,
the HashMap fields of the config. -/
def parseYamlMapOf {α : Type} (parse : Yaml → Option α) : Yaml → Option (List (String × α))
  | .map es => es.mapM (fun e => (parse e.2).map (fun v => (e.1, v)))
  | _ => none

/-- Derived deserializer of ConfigFile: default is an Option field,
stacks carries the serde default attribute, and processes is
required. -/
def parseConfigFile : Yaml → Option ConfigFile
  | .map es => do
    let dflt ← parseOptionField es "default" parseConfigDefault
    let cfgStacks ← parseFieldD es "stacks" (parseYamlMapOf parseConfigStack) []
    let processes ←
      match yamlLookup es "processes" with
      | none => none
      | some v => parseYamlMapOf parseConfigProcess v
    some ⟨dflt, cfgStacks, processes⟩
  | _ => none

/-! ## Observation helpers for the process table

The SQL point updates act by name; these helpers read one column of
the first row carrying a name, which is the row when names are a
primary key. -/

/-- Read a column of the first row with the given name. -/
def colOf {α : Type} (g : Process → α) : List Process → String → Option α
  | [], _ => none
  | p :: rest, name => if p.name = name then some (g p) else colOf g rest name

/-- State column of the first row with the given name. -/
def stateOf : List Process → String → Option ProcessState :=
  colOf Process.state

/-- Pid column of the first row with the given name. -/
def pidOf : List Process → String → Option (Option Nat) :=
  colOf Process.pid

/-! ## Concrete instances used by the claim theorems below -/

/-- Concrete store row: a process recorded as Running with a null
pid. -/
def runningNoPid : Process :=
  { name := "p", binary := "p", state := .Running, pid := none
    args := [], cargoArgs := [], env := [] }

/-- Concrete store row: a stopped process with a null pid. -/
def stoppedNoPid : Process :=
  { name := "p", binary := "p", state := .Stopped, pid := none
    args := [], cargoArgs := [], env := [] }

/-- Concrete store row: a running process with pid 5. -/
def runningPid5 : Process :=
  { name := "b", binary := "b", state := .Running, pid := some 5
    args := [], cargoArgs := [], env := [] }

/-- Concrete store holding only the running process. -/
def storeRunning : Store :=
  { processes := [runningPid5], stackTable := [], relStackProcess := [], relStackInherited := [] }

/-- Concrete store holding only the stopped process. -/
def storeStopped : Store :=
  { processes := [stoppedNoPid], stackTable := [], relStackProcess := [], relStackInherited := [] }

/-- Two stacks inheriting each other. -/
def twoCycleStacks : List (String × ConfigStack) := [("A", ⟨["B"], []⟩), ("B", ⟨["A"], []⟩)]

/-- One stack inheriting itself. -/
def selfLoopStacks : List (String × ConfigStack) := [("A", ⟨["A"], []⟩)]

/-- An acyclic diamond: A inherits B and C, which both inherit D. -/
def diamondStacks : List (String × ConfigStack) :=
  [("A", ⟨["B", "C"], []⟩), ("B", ⟨["D"], ["pb"]⟩), ("C", ⟨["D"], ["pc"]⟩), ("D", ⟨[], ["pd"]⟩)]

/-- A linear inheritance chain inside a stack map: each listed stack
inherits exactly the next one and the last inherits nothing. -/
def isChainB (stackMap : List (String × ConfigStack)) : List String → Bool
  | [] => true
  | [a] =>
    match lookupStack stackMap a with
    | some stk => stk.inherits = ([] : List String)
    | none => false
  | a :: b :: rest =>
    (match lookupStack stackMap a with
     | some stk => stk.inherits = [b]
     | none => false) && isChainB stackMap (b :: rest)

/-- Chain of stacks carrying the given names, each inheriting the
next. -/
def chainStacks : List String → List (String × ConfigStack)
  | [] => []
  | [a] => [(a, ⟨[], []⟩)]
  | a :: b :: rest => (a, ⟨[b], []⟩) :: chainStacks (b :: rest)

/-- Names of a ten-stack chain. -/
def chainNamesTen : List String :=
  ["d1", "d2", "d3", "d4", "d5", "d6", "d7", "d8", "d9", "d10"]

/-- Names of an eleven-stack chain. -/
def chainNamesEleven : List String := chainNamesTen ++ ["d11"]

/-- Store with no processes and one pre-existing stack row. -/
def storeOld : Store :=
  { processes := [], stackTable := ["old"], relStackProcess := [], relStackInherited := [] }

/-- Store with a process and a stack with no process rows. -/
def storeEmptyStack : Store :=
  { processes := [stoppedNoPid], stackTable := ["s"], relStackProcess := [],
    relStackInherited := [] }

/-! ## Theorems -/

theorem spanSubst_append (n rest : List Char) (hn : ∀ c ∈ n, isSubstChar c = true)
    (hr : rest = [] ∨ ∃ c cs, rest = c :: cs ∧ isSubstChar c = false) :
    spanSubst (n ++ rest) = (n, rest) := by
  induction n with
  | nil =>
    rcases hr with h | ⟨c, cs, rfl, hc⟩
    · simp [h, spanSubst]
    · simp [spanSubst, hc]
  | cons c cs ih =>
    have hc : isSubstChar c = true := hn c (by simp)
    have ih2 := ih (fun x hx => hn x (by simp [hx]))
    simp [spanSubst, hc, ih2]

theorem colOf_update {α : Type} (g : Process → α) (f : Process → Process)
    (hf : ∀ p, (f p).name = p.name) (procs : List Process) (n m : String) :
    colOf g (procs.map fun p => if p.name = n then f p else p) m =
      if m = n then colOf (fun p => g (f p)) procs m else colOf g procs m := by
  induction procs with
  | nil => by_cases h : m = n <;> simp [colOf, h]
  | cons p rest ih =>
    simp only [List.map_cons]
    by_cases hp : p.name = n
    · by_cases hm : m = n
      · subst hm
        simp [colOf, hf, hp, ih]
      · have hpm : ¬ p.name = m := by
          intro h
          exact hm (by rw [← h, hp])
        have hnm : ¬ n = m := fun h => hm h.symm
        simp [colOf, hf, hp, hpm, ih, hm, hnm]
    · by_cases hpm : p.name = m
      · have hm : ¬ m = n := by
          intro h
          exact hp (by rw [hpm, h])
        simp [colOf, hf, hp, hpm, hm]
      · simp [colOf, hf, hp, hpm, ih]

theorem stateOf_set_status (procs : List Process) (n : String) (s : ProcessState) (m : String) :
    stateOf (set_status procs n s) m =
      if m = n then (stateOf procs m).map (fun _ => s) else stateOf procs m := by
  have h := colOf_update Process.state (fun p => { p with state := s })
    (fun _ => rfl) procs n m
  have h2 : ∀ l mm, colOf (fun _ => s) l mm = (colOf Process.state l mm).map (fun _ => s) := by
    intro l
    induction l with
    | nil => intro mm; simp [colOf]
    | cons q rest ih =>
      intro mm
      by_cases hq : q.name = mm <;> simp [colOf, hq, ih]
  rw [stateOf, set_status, h]
  by_cases hmn : m = n <;> simp [hmn, stateOf, h2]

theorem pidOf_set_status (procs : List Process) (n : String) (s : ProcessState) (m : String) :
    pidOf (set_status procs n s) m = pidOf procs m := by
  have h := colOf_update Process.pid (fun p => { p with state := s })
    (fun _ => rfl) procs n m
  rw [pidOf, set_status, h]
  by_cases hmn : m = n <;> simp [hmn, pidOf]

theorem stateOf_set_pid (procs : List Process) (n : String) (pid : Option Nat) (m : String) :
    stateOf (set_pid procs n pid) m = stateOf procs m := by
  have h := colOf_update Process.state (fun p => { p with pid := pid })
    (fun _ => rfl) procs n m
  rw [stateOf, set_pid, h]
  by_cases hmn : m = n <;> simp [hmn, stateOf]

theorem pidOf_set_pid (procs : List Process) (n : String) (pid : Option Nat) (m : String) :
    pidOf (set_pid procs n pid) m =
      if m = n then (pidOf procs m).map (fun _ => pid) else pidOf procs m := by
  have h := colOf_update Process.pid (fun p => { p with pid := pid })
    (fun _ => rfl) procs n m
  have h2 : ∀ l mm, colOf (fun _ => pid) l mm = (colOf Process.pid l mm).map (fun _ => pid) := by
    intro l
    induction l with
    | nil => intro mm; simp [colOf]
    | cons q rest ih =>
      intro mm
      by_cases hq : q.name = mm <;> simp [colOf, hq, ih]
  rw [pidOf, set_pid, h]
  by_cases hmn : m = n <;> simp [hmn, pidOf, h2]

theorem colOf_some_of_mem_name {α : Type} (g : Process → α) (procs : List Process) (m : String)
    (h : m ∈ procs.map Process.name) : ∃ a, colOf g procs m = some a := by
  induction procs with
  | nil => simp at h
  | cons p rest ih =>
    by_cases hp : p.name = m
    · exact ⟨g p, by simp [colOf, hp]⟩
    · simp only [List.map_cons, List.mem_cons] at h
      rcases h with h | h

      · exact absurd h.symm hp
      · rcases ih h with ⟨a, ha⟩
        exact ⟨a, by simp [colOf, hp, ha]⟩

theorem stateOf_fold_set_status (selected : List Process) (procs : List Process)
    (s : ProcessState) (m : String) :
    stateOf (selected.foldl (fun acc p => set_status acc p.name s) procs) m =
      if m ∈ selected.map Process.name then (stateOf procs m).map (fun _ => s)
      else stateOf procs m := by
  induction selected generalizing procs with
  | nil => simp
  | cons q rest ih =>
    simp only [List.foldl_cons, List.map_cons, List.mem_cons]
    rw [ih, stateOf_set_status]
    have hmm : ∀ (x : Option ProcessState),
        Option.map ((fun _ => s) ∘ fun _ : ProcessState => s) x = Option.map (fun _ => s) x := by
      intro x
      cases x <;> rfl
    by_cases hq : m = q.name
    · by_cases hr : m ∈ rest.map Process.name
      · simp [hq, hr, Option.map_map, hmm]
      · simp [hq, hr, Option.map_map, hmm]
    · by_cases hr : m ∈ rest.map Process.name
      · simp [hq, hr]
      · simp [hq, hr]

theorem pidOf_fold_set_status (selected : List Process) (procs : List Process)
    (s : ProcessState) (m : String) :
    pidOf (selected.foldl (fun acc p => set_status acc p.name s) procs) m = pidOf procs m := by
  induction selected generalizing procs with
  | nil => simp
  | cons q rest ih =>
    simp only [List.foldl_cons]
    rw [ih, pidOf_set_status]

/-- Every process returned by filter_processes is a row of the process
table. -/
theorem filter_processes_ok_mem (st : Store) (cur : Option String) (names : List String)
    (selected : List Process) (h : filter_processes st cur names = .ok selected) :
    ∀ p ∈ selected, p ∈ st.processes := by
  rw [filter_processes.eq_def] at h
  rcases hsc : (match names, cur with
      | _ :: _, _ => Except.ok names
      | [], some s => Except.map (fun stk : Stack => stk.processes) (get_stack st s)
      | [], none => Except.ok ([] : List String)) with e | expected
  · rw [hsc] at h
    simp at h
  · rw [hsc] at h
    simp only at h
    by_cases hemp : expected = []
    · simp [hemp] at h
      intro p hp
      rw [h]
      exact hp
    · simp only [hemp, if_false] at h
      split at h
      · simp at h
      · simp only [Except.ok.injEq] at h
        intro p hp
        rw [← h] at hp
        exact List.mem_of_mem_filter hp

/-- C1 counterexample: with the live pid table empty (so no task is
reported for the process), the reconciliation step of refresh leaves a
process whose stored pid is already null completely untouched: its
state stays Running instead of becoming Stopped as the claim
requires. -/
theorem c1_counterexample :
    refresh_reconcile [] [runningNoPid] = [runningNoPid] ∧
      runningNoPid.pid = none ∧ runningNoPid.state ≠ ProcessState.Stopped :=
  ⟨rfl, rfl, by decide⟩

/-- C1 amended: the reconciliation step of refresh inspects only the
stored pid, not scheduler labels: a process with a null pid is left
untouched, a process whose pid is among the live pids is left
untouched (no handle or scheduler state is written), and a process
whose pid is not live is set to state Stopped with a null pid. -/
theorem c1_amended (userPids : List Nat) (procList : List Process) :
    (∀ p ∈ procList, p.pid = none → p ∈ refresh_reconcile userPids procList) ∧
    (∀ p ∈ procList, ∀ i, p.pid = some i → i ∈ userPids →
      p ∈ refresh_reconcile userPids procList) ∧
    (∀ p ∈ procList, ∀ i, p.pid = some i → i ∉ userPids →
      { p with state := ProcessState.Stopped, pid := none } ∈
        refresh_reconcile userPids procList) ∧
    (∀ p : Process, p.pid = none → reconcile_pids userPids p = p) ∧
    (∀ (p : Process) (i : Nat), p.pid = some i → i ∈ userPids →
      reconcile_pids userPids p = p) ∧
    (∀ (p : Process) (i : Nat), p.pid = some i → i ∉ userPids →
      reconcile_pids userPids p = { p with state := ProcessState.Stopped, pid := none }) := by
  refine ⟨?_, ?_, ?_, ?_, ?_, ?_⟩
  · intro p hp hpid
    have : reconcile_pids userPids p = p := by simp [reconcile_pids, hpid]
    rw [← this]
    exact List.mem_map_of_mem _ hp
  · intro p hp i hpid hi
    have : reconcile_pids userPids p = p := by simp [reconcile_pids, hpid, hi]
    rw [← this]
    exact List.mem_map_of_mem _ hp
  · intro p hp i hpid hi
    have : reconcile_pids userPids p =
        { p with state := ProcessState.Stopped, pid := none } := by
      simp [reconcile_pids, hpid, hi]
    rw [← this]
    exact List.mem_map_of_mem _ hp
  · intro p hpid
    simp [reconcile_pids, hpid]
  · intro p i hpid hi
    simp [reconcile_pids, hpid, hi]
  · intro p i hpid hi
    simp [reconcile_pids, hpid, hi]

/-- C1 amended witness: the no-pid case at a concrete process. -/
theorem c1_amended_witness : reconcile_pids [] runningNoPid = runningNoPid :=
  (c1_amended [] [runningNoPid]).2.2.2.1 runningNoPid rfl

/-- C3 counterexample: inside Start run the state column is written to
Running before the pid column is written, so at the intermediate
observable point the process has state Running and pid null, violating
the claimed invariant; and the reconciliation step of a later refresh
leaves such a process untouched rather than restoring the
invariant. -/
theorem c3_counterexample :
    set_status [stoppedNoPid] "p" ProcessState.Running =
      [{ stoppedNoPid with state := ProcessState.Running }] ∧
    ({ stoppedNoPid with state := ProcessState.Running }).state = ProcessState.Running ∧
    ({ stoppedNoPid with state := ProcessState.Running }).pid = none ∧
    refresh_reconcile []
      [{ stoppedNoPid with state := ProcessState.Running }] =
      [{ stoppedNoPid with state := ProcessState.Running }] :=
  ⟨by decide, rfl, rfl, rfl⟩

/-- C3 amended: the invariant that a Running process has a non-null
pid is established at the end of the two writes of Start run, is
preserved by the reconciliation step of refresh and by the writes of
stop, but does not hold at the intermediate point of Start run between
the state write and the pid write (see the counterexample). -/
theorem c3_amended :
    (∀ (procs : List Process) (n : String) (h : Nat),
      (∀ q ∈ procs, q.state = ProcessState.Running → q.pid ≠ none) →
      ∀ q ∈ set_pid (set_status procs n ProcessState.Running) n (some h),
        q.state = ProcessState.Running → q.pid ≠ none) ∧
    (∀ (userPids : List Nat) (p : Process),
      (p.state = ProcessState.Running → p.pid ≠ none) →
      ((reconcile_pids userPids p).state = ProcessState.Running →
        (reconcile_pids userPids p).pid ≠ none)) ∧
    (∀ (procs : List Process) (n : String),
      (∀ q ∈ procs, q.state = ProcessState.Running → q.pid ≠ none) →
      (∀ q ∈ set_status procs n ProcessState.Stopped,
        q.state = ProcessState.Running → q.pid ≠ none) ∧
      (∀ q ∈ set_pid (set_status procs n ProcessState.Stopped) n none,
        q.state = ProcessState.Running → q.pid ≠ none)) := by
  refine ⟨?_, ?_, ?_⟩
  · intro procs n h hinv q hq
    simp only [set_pid, set_status, List.map_map, List.mem_map, Function.comp] at hq
    rcases hq with ⟨q0, hq0, rfl⟩
    by_cases hn : q0.name = n
    · simp [hn]
    · simp only [hn, if_false]
      exact hinv q0 hq0
  · intro userPids p hinv
    rcases hpid : p.pid with _ | i
    · simp only [reconcile_pids, hpid]
      intro hst
      exact absurd hpid (hinv hst)
    · by_cases hi : i ∈ userPids
      · simpa [reconcile_pids, hpid, hi] using hinv
      · simp [reconcile_pids, hpid, hi]
  · intro procs n hinv
    constructor
    · intro q hq
      simp only [set_status, List.mem_map] at hq
      rcases hq with ⟨q0, hq0, rfl⟩
      by_cases hn : q0.name = n
      · simp [hn]
      · simp only [hn, if_false]
        exact hinv q0 hq0
    · intro q hq
      simp only [set_pid, set_status, List.map_map, List.mem_map, Function.comp] at hq
      rcases hq with ⟨q0, hq0, rfl⟩
      by_cases hn : q0.name = n
      · simp [hn]
      · simp only [hn, if_false]
        exact hinv q0 hq0

/-- C3 amended witness: the post-write invariant at a concrete
store. -/
theorem c3_amended_witness :
    ({ stoppedNoPid with state := ProcessState.Running, pid := some 7 } : Process).pid ≠ none :=
  c3_amended.1 [stoppedNoPid] "p" 7
    (by decide)
    { stoppedNoPid with state := ProcessState.Running, pid := some 7 }
    (by decide)
    rfl

/-- C10 counterexample: starting an already running process does not
leave the store unchanged. The exec pipeline first marks every
selected process Building and the run step then skips it without
reverting, so the process ends in state Building. -/
theorem c10_counterexample :
    (start_exec (fun _ => some 9) (.exited true) storeRunning none ["b"]).1 ≠ storeRunning ∧
    stateOf (start_exec (fun _ => some 9) (.exited true) storeRunning none ["b"]).1.processes
      "b" = some ProcessState.Building ∧
    pidOf (start_exec (fun _ => some 9) (.exited true) storeRunning none ["b"]).1.processes
      "b" = some (some 5) ∧
    (start_exec (fun _ => some 9) (.exited true) storeRunning none ["b"]).2.2 = [] := by
  refine ⟨by decide, by decide, by decide, by decide⟩

/-- C10 amended: Start run itself is a no-op for a process whose
snapshot state is neither Stopped nor Building: it submits nothing and
leaves the table untouched. However the enclosing start operation
marks every selected process Building before the build and never
reverts it, so running start on an already Running process launches
nothing but leaves that process in state Building with its pid
unchanged. -/
theorem c10_amended :
    (∀ (sched : String → Option Nat) (procs : List Process) (p : Process),
      p.state ≠ ProcessState.Stopped → p.state ≠ ProcessState.Building →
      start_run sched procs p = (procs, [])) ∧
    (∀ (sched : String → Option Nat) (st : Store) (cur : Option String) (p : Process),
      filter_processes st cur [p.name] = .ok [p] →
      p.name ∈ st.processes.map Process.name →
      p.state = ProcessState.Running →
      (start_exec sched (.exited true) st cur [p.name]).2.2 = [] ∧
      stateOf (start_exec sched (.exited true) st cur [p.name]).1.processes p.name =
        some ProcessState.Building ∧
      pidOf (start_exec sched (.exited true) st cur [p.name]).1.processes p.name =
        pidOf st.processes p.name) := by
  constructor
  · intro sched procs p h1 h2
    simp [start_run, h1, h2]
  · intro sched st cur p hf hmem hrun
    have hrun1 : p.state ≠ ProcessState.Stopped := by
      rw [hrun]
      decide
    have hrun2 : p.state ≠ ProcessState.Building := by
      rw [hrun]
      decide
    have hexec : start_exec sched (.exited true) st cur [p.name] =
        ({ st with processes := set_status st.processes p.name ProcessState.Building },
          none, []) := by
      rw [start_exec, hf]
      simp [start_build, start_run_all, start_run, hrun1, hrun2]
    rw [hexec]
    refine ⟨rfl, ?_, ?_⟩
    · rw [stateOf_set_status]
      rcases colOf_some_of_mem_name Process.state st.processes p.name hmem with ⟨a, ha⟩
      simp only [if_pos rfl]
      rw [stateOf, ha]
      rfl
    · rw [pidOf_set_status]

/-- C10 amended witness: the run no-op at a concrete process. -/
theorem c10_amended_witness :
    start_run (fun _ => some 9) [] runningPid5 = ([], []) :=
  c10_amended.1 (fun _ => some 9) [] runningPid5 (by decide) (by decide)

/-- C7 counterexample: when the build command exits non-zero, start
fails and launches nothing, but the selected process is left in state
Building, not reverted to Stopped as the claim requires. -/
theorem c7_counterexample :
    (start_exec (fun _ => none) (.exited false) storeStopped none ["p"]).2.1 =
      some JockerError.startFailed ∧
    (start_exec (fun _ => none) (.exited false) storeStopped none ["p"]).2.2 = [] ∧
    stateOf (start_exec (fun _ => none) (.exited false) storeStopped none ["p"]).1.processes
      "p" = some ProcessState.Building := by
  refine ⟨by decide, by decide, by decide⟩

/-- C7 amended: on a non-zero build exit the start operation fails and
launches nothing, but every selected process is left in state Building
(the revert to Stopped happens only in the spawn-failure arm of build,
which then returns success so that exec goes on to launch); pids are
unchanged. -/
theorem c7_amended (sched : String → Option Nat) (st : Store) (cur : Option String)
    (names : List String) (selected : List Process)
    (hf : filter_processes st cur names = .ok selected) :
    (start_exec sched (.exited false) st cur names).2.1 = some JockerError.startFailed ∧
    (start_exec sched (.exited false) st cur names).2.2 = [] ∧
    (∀ p ∈ selected,
      stateOf (start_exec sched (.exited false) st cur names).1.processes p.name =
        some ProcessState.Building) ∧
    (∀ m, pidOf (start_exec sched (.exited false) st cur names).1.processes m =
      pidOf st.processes m) := by
  have hexec : start_exec sched (.exited false) st cur names =
      ({ st with
          processes := selected.foldl
            (fun acc p => set_status acc p.name ProcessState.Building) st.processes },
        some JockerError.startFailed, []) := by
    rw [start_exec, hf]
    simp [start_build]
  rw [hexec]
  refine ⟨rfl, rfl, ?_, ?_⟩
  · intro p hp
    rw [stateOf_fold_set_status]
    have hmem : p.name ∈ selected.map Process.name := List.mem_map_of_mem Process.name hp
    have hmem2 : p.name ∈ st.processes.map Process.name :=
      List.mem_map_of_mem Process.name (filter_processes_ok_mem st cur names selected hf p hp)
    rcases colOf_some_of_mem_name Process.state st.processes p.name hmem2 with ⟨a, ha⟩
    simp only [hmem, if_pos]
    rw [stateOf, ha]
    rfl
  · intro m
    rw [pidOf_fold_set_status]

/-- C7 amended witness: the failed-build outcome at a concrete
store. -/
theorem c7_amended_witness :
    (start_exec (fun _ => none) (.exited false) storeStopped none ["p"]).2.1 =
      some JockerError.startFailed :=
  (c7_amended (fun _ => none) storeStopped none ["p"] [stoppedNoPid] rfl).1

/-- C4 counterexample: the diamond configuration is acyclic (two
distinct inheritance paths from A reach the ancestor D), yet resolving
A fails with RecursionLoop, because the browsed set is global to the
whole walk rather than the set of ancestors on the current path. -/
theorem c4_counterexample :
    resolve_inherited diamondStacks ⟨["B", "C"], []⟩ = .error .recursionLoop := by
  simp [resolve_inherited, recurse_inherited_processes, lookupStack, MAX_RECURSION_LEVEL,
    diamondStacks]

/-- C4 amended: the resolver fails with RecursionLoop when the walk
re-enters any stack already visited anywhere earlier during the
resolution of the current stack, not only an ancestor still on the
walk: the two-stack cycle and the self-inheritance fail with
RecursionLoop as the claim states, but the acyclic diamond also fails
with RecursionLoop; a stack with no inheritance always resolves. -/
theorem c4_amended :
    resolve_inherited twoCycleStacks ⟨["B"], []⟩ = .error .recursionLoop ∧
    resolve_inherited selfLoopStacks ⟨["A"], []⟩ = .error .recursionLoop ∧
    resolve_inherited diamondStacks ⟨["B", "C"], []⟩ = .error .recursionLoop ∧
    (∀ stackMap ps, resolve_inherited stackMap ⟨[], ps⟩ = .ok ([], [])) := by
  refine ⟨?_, ?_, ?_, ?_⟩
  · simp [resolve_inherited, recurse_inherited_processes, lookupStack, MAX_RECURSION_LEVEL,
      twoCycleStacks]
  · simp [resolve_inherited, recurse_inherited_processes, lookupStack, MAX_RECURSION_LEVEL,
      selfLoopStacks]
  · simp [resolve_inherited, recurse_inherited_processes, lookupStack, MAX_RECURSION_LEVEL,
      diamondStacks]
  · intro stackMap ps
    simp [resolve_inherited, recurse_inherited_processes, MAX_RECURSION_LEVEL]

/-! ## Claim C5: the depth limit of the inheritance walk -/

theorem recurse_level_gt (level : Nat) (names : List String)
    (stackMap : List (String × ConfigStack)) (browsed acc : List String)
    (h : level > MAX_RECURSION_LEVEL) :
    recurse_inherited_processes level names stackMap browsed acc =
      .error .recursionDeepnessTooHigh := by
  rw [recurse_inherited_processes.eq_def]
  simp [h]

theorem recurse_nil (level : Nat) (stackMap : List (String × ConfigStack))
    (browsed acc : List String) (h : ¬ level > MAX_RECURSION_LEVEL) :
    recurse_inherited_processes level [] stackMap browsed acc = .ok (browsed, acc) := by
  rw [recurse_inherited_processes.eq_def]
  simp [h]

theorem recurse_cons (level : Nat) (s : String) (rest : List String)
    (stackMap : List (String × ConfigStack)) (browsed acc : List String)
    (stk : ConfigStack) (h : ¬ level > MAX_RECURSION_LEVEL) (hb : s ∉ browsed)
    (hlook : lookupStack stackMap s = some stk) :
    recurse_inherited_processes level (s :: rest) stackMap browsed acc =
      match recurse_inherited_processes (level + 1) stk.inherits stackMap (s :: browsed)
          (acc ++ stk.processes) with
      | .error e => .error e
      | .ok (b2, a2) => recurse_inherited_processes level rest stackMap b2 a2 := by
  conv_lhs => rw [recurse_inherited_processes.eq_def]
  simp [h, hb, hlook]

theorem recurse_chain (stackMap : List (String × ConfigStack)) (l : List String) :
    ∀ (a : String) (level : Nat) (browsed acc : List String),
      isChainB stackMap (a :: l) = true → (a :: l).Nodup →
      (∀ x ∈ a :: l, x ∉ browsed) →
      (level + l.length + 1 > MAX_RECURSION_LEVEL →
        recurse_inherited_processes level [a] stackMap browsed acc =
          .error .recursionDeepnessTooHigh) ∧
      (level + l.length + 1 ≤ MAX_RECURSION_LEVEL →
        ∃ b2 a2, recurse_inherited_processes level [a] stackMap browsed acc = .ok (b2, a2)) := by
  induction l with
  | nil =>
    intro a level browsed acc hchain hnodup hdisj
    rcases hlook : lookupStack stackMap a with _ | stk
    · simp [isChainB, hlook] at hchain
    · simp only [isChainB, hlook, decide_eq_true_eq] at hchain
      by_cases hlev : level > MAX_RECURSION_LEVEL
      · constructor
        · intro _
          exact recurse_level_gt level [a] stackMap browsed acc hlev
        · intro hle
          exact absurd hle (by simp [MAX_RECURSION_LEVEL] at hlev ⊢; omega)
      · have ha : a ∉ browsed := hdisj a (by simp)
        rw [recurse_cons level a [] stackMap browsed acc stk hlev ha hlook, hchain]
        by_cases hlev2 : level + 1 > MAX_RECURSION_LEVEL
        · rw [recurse_level_gt (level + 1) [] stackMap (a :: browsed) (acc ++ stk.processes)
            hlev2]
          constructor
          · intro _
            rfl
          · intro hle
            exact absurd hle (by simp [MAX_RECURSION_LEVEL] at hlev2 ⊢; omega)
        · rw [recurse_nil (level + 1) stackMap (a :: browsed) (acc ++ stk.processes) hlev2]
          constructor
          · intro hgt
            exact absurd hgt (by simp [MAX_RECURSION_LEVEL] at hlev2 ⊢; omega)
          · intro _
            refine ⟨a :: browsed, acc ++ stk.processes, ?_⟩
            simp only
            exact recurse_nil level stackMap (a :: browsed) (acc ++ stk.processes) hlev
  | cons b l2 ih =>
    intro a level browsed acc hchain hnodup hdisj
    rcases hlook : lookupStack stackMap a with _ | stk
    · simp [isChainB, hlook] at hchain
    · simp only [isChainB, hlook, Bool.and_eq_true, decide_eq_true_eq] at hchain
      obtain ⟨hinh, hchain2⟩ := hchain
      by_cases hlev : level > MAX_RECURSION_LEVEL
      · constructor
        · intro _
          exact recurse_level_gt level [a] stackMap browsed acc hlev
        · intro hle
          exact absurd hle (by simp [MAX_RECURSION_LEVEL] at hlev ⊢; omega)
      · have ha : a ∉ browsed := hdisj a (by simp)
        rw [recurse_cons level a [] stackMap browsed acc stk hlev ha hlook, hinh]
        have hnodup2 : (b :: l2).Nodup := (List.nodup_cons.mp hnodup).2
        have hnotmem : a ∉ b :: l2 := (List.nodup_cons.mp hnodup).1
        have hdisj2 : ∀ x ∈ b :: l2, x ∉ a :: browsed := by
          intro x hx
          simp only [List.mem_cons, not_or]
          refine ⟨?_, ?_⟩
          · intro hxa
            rw [hxa] at hx
            exact hnotmem hx
          · have := hdisj x (by simp [List.mem_cons] at hx ⊢; tauto)
            exact this
        have IH := ih b (level + 1) (a :: browsed) (acc ++ stk.processes) hchain2 hnodup2 hdisj2
        constructor
        · intro hgt
          have hgt2 : level + 1 + l2.length + 1 > MAX_RECURSION_LEVEL := by
            simp only [List.length_cons] at hgt
            omega
          rw [IH.1 hgt2]
        · intro hle
          have hle2 : level + 1 + l2.length + 1 ≤ MAX_RECURSION_LEVEL := by
            simp only [List.length_cons] at hle
            omega
          obtain ⟨b2, a2, hok⟩ := IH.2 hle2
          rw [hok]
          refine ⟨b2, a2, ?_⟩
          simp only
          exact recurse_nil level stackMap b2 a2 hlev

/-- C5: the walk depth cap is 10; along any duplicate-free linear
inheritance chain, resolving a stack whose transitive ancestry has
depth exactly 10 succeeds, and depth 11 fails with the depth error
(RecursionDepthExceeded in the wording of the specification,
RecursionDeepnessTooHigh in the source). -/
theorem c5_depth_limit :
    MAX_RECURSION_LEVEL = 10 ∧
    ∀ (stackMap : List (String × ConfigStack)) (cs : ConfigStack) (a : String)
      (l : List String),
      cs.inherits = [a] → isChainB stackMap (a :: l) = true → (a :: l).Nodup →
      ((a :: l).length = 10 → ∃ r, resolve_inherited stackMap cs = .ok r) ∧
      ((a :: l).length = 11 →
        resolve_inherited stackMap cs = .error .recursionDeepnessTooHigh) := by
  refine ⟨rfl, ?_⟩
  intro stackMap cs a l hinh hchain hnodup
  have h := recurse_chain stackMap l a 0 [] [] hchain hnodup (by simp)
  constructor
  · intro hlen
    simp only [List.length_cons] at hlen
    have hle : 0 + l.length + 1 ≤ MAX_RECURSION_LEVEL := by
      simp only [MAX_RECURSION_LEVEL]
      omega
    obtain ⟨b2, a2, hok⟩ := h.2 hle
    refine ⟨(b2, a2), ?_⟩
    rw [resolve_inherited, hinh]
    exact hok
  · intro hlen
    simp only [List.length_cons] at hlen
    have hgt : 0 + l.length + 1 > MAX_RECURSION_LEVEL := by
      simp only [MAX_RECURSION_LEVEL]
      omega
    rw [resolve_inherited, hinh]
    exact h.1 hgt

/-- C5 witness: a concrete ten-deep chain resolves and a concrete
eleven-deep chain fails with the depth error. -/
theorem c5_depth_limit_witness :
    (∃ r, resolve_inherited (chainStacks chainNamesTen) ⟨["d1"], []⟩ = .ok r) ∧
    resolve_inherited (chainStacks chainNamesEleven) ⟨["d1"], []⟩ =
      .error .recursionDeepnessTooHigh := by
  constructor
  · exact (c5_depth_limit.2 (chainStacks chainNamesTen) ⟨["d1"], []⟩ "d1"
      ["d2", "d3", "d4", "d5", "d6", "d7", "d8", "d9", "d10"] rfl (by decide)
      (by decide)).1 (by decide)
  · exact (c5_depth_limit.2 (chainStacks chainNamesEleven) ⟨["d1"], []⟩ "d1"
      ["d2", "d3", "d4", "d5", "d6", "d7", "d8", "d9", "d10", "d11"] rfl (by decide)
      (by decide)).2 (by decide)

/-! ## Claim C6: variable expansion -/

theorem spanSubst_parts (l : List Char) : (spanSubst l).1 ++ (spanSubst l).2 = l := by
  induction l with
  | nil => simp [spanSubst]
  | cons c cs ih =>
    simp only [spanSubst]
    split
    · simp [ih]
    · simp

theorem splitColonDash_no_sep (n : List Char) (h : hasColonDash n = false) :
    splitColonDash n = [n] := by
  induction n using splitColonDash.induct with
  | case1 => rfl
  | case2 rest =>
    rw [hasColonDash.eq_1] at h
    simp at h
  | case3 c rest hne hrest ih =>
    rw [hasColonDash.eq_2 c rest hne] at h
    rw [ih h] at hrest
    simp at hrest
  | case4 c rest hne hd t hsplit ih =>
    rw [hasColonDash.eq_2 c rest hne] at h
    rw [splitColonDash.eq_3 c rest hne, ih h]

theorem splitColonDash_sep (n d : List Char) (h : hasColonDash n = false) :
    splitColonDash (n ++ ':' :: '-' :: d) = n :: splitColonDash d := by
  induction n with
  | nil =>
    simpa using splitColonDash.eq_2 d
  | cons c n2 ih =>
    have hne : ∀ r1, c = ':' → n2 ++ ':' :: '-' :: d = '-' :: r1 → False := by
      intro r1 hc hr
      cases n2 with
      | nil => simp at hr
      | cons c2 n3 =>
        simp only [List.cons_append] at hr
        injection hr with hc2 _
        rw [hc, hc2] at h
        rw [hasColonDash.eq_1] at h
        simp at h
    have hne2 : ∀ tail, c = ':' → n2 = '-' :: tail → False := by
      intro tail hc hn2
      rw [hc, hn2] at h
      rw [hasColonDash.eq_1] at h
      simp at h
    have h2 : hasColonDash n2 = false := by
      rw [hasColonDash.eq_2 c n2 hne2] at h
      exact h
    rw [List.cons_append, splitColonDash.eq_3 c (n2 ++ ':' :: '-' :: d) hne, ih h2]

theorem substValue_plain (env : List (List Char × List Char)) (n : List Char)
    (h : hasColonDash n = false) :
    substValue env n = (lookupVar env n).getD [] := by
  rcases hl : lookupVar env n with _ | v <;>
    simp [substValue, splitColonDash_no_sep n h, hl]

theorem substValue_sep (env : List (List Char × List Char)) (n d : List Char)
    (hn : hasColonDash n = false) (hd : hasColonDash d = false) :
    substValue env (n ++ ':' :: '-' :: d) = (lookupVar env n).getD d := by
  rcases hl : lookupVar env n with _ | v <;>
    simp [substValue, splitColonDash_sep n d hn, splitColonDash_no_sep d hd, hl]

theorem envsubst_token (env : List (List Char × List Char)) (n tail : List Char)
    (hn : ∀ c ∈ n, isSubstChar c = true) :
    envsubst env ('$' :: '{' :: (n ++ '}' :: tail)) = substValue env n ++ envsubst env tail := by
  have hspan := spanSubst_append n ('}' :: tail) hn (Or.inr ⟨'}', tail, rfl, by decide⟩)
  rw [envsubst.eq_def]
  simp only
  rw [hspan]
  rfl

theorem envsubst_nomatch (env : List (List Char × List Char)) (rest name rest2 : List Char)
    (hspan : spanSubst rest = (name, rest2))
    (hne : ∀ tail, rest2 = '}' :: tail → False) :
    envsubst env ('$' :: '{' :: rest) = '$' :: '{' :: (name ++ envsubst env rest2) := by
  rw [envsubst.eq_2]
  split
  · rename_i name2 tail2 heq
    rw [hspan] at heq
    injection heq with h1 h2
    exact absurd h2.symm (fun hh => hne tail2 hh.symm)
  · rename_i name2 rest3 hne2 heq
    rw [hspan] at heq
    injection heq with h1 h2
    rw [h1, h2]

theorem hasPlaceholder_nomatch (rest name rest2 : List Char)
    (hspan : spanSubst rest = (name, rest2))
    (hne : ∀ tail, rest2 = '}' :: tail → False) :
    hasPlaceholder ('$' :: '{' :: rest) = hasPlaceholder rest2 := by
  rw [hasPlaceholder.eq_2]
  split
  · rename_i name2 tail2 heq
    rw [hspan] at heq
    injection heq with h1 h2
    exact absurd h2.symm (fun hh => hne tail2 hh.symm)
  · rename_i name2 rest3 hne2 heq
    rw [hspan] at heq
    injection heq with h1 h2
    rw [h2]

theorem envsubst_no_placeholder (env : List (List Char × List Char)) (s : List Char)
    (h : hasPlaceholder s = false) : envsubst env s = s := by
  induction s using hasPlaceholder.induct with
  | case1 => exact envsubst.eq_1 env
  | case2 rest name tail hspan =>
    exfalso
    rw [hasPlaceholder.eq_2] at h
    split at h
    · simp at h
    · rename_i name2 rest3 hne2 heq
      rw [hspan] at heq
      injection heq with h1 h2
      exact hne2 tail h2.symm
  | case3 rest name rest2 hne hspan ih =>
    have h2 : hasPlaceholder rest2 = false := by
      rw [hasPlaceholder_nomatch rest name rest2 hspan (fun t ht => hne t ht)] at h
      exact h
    rw [envsubst_nomatch env rest name rest2 hspan (fun t ht => hne t ht), ih h2]
    have hp := spanSubst_parts rest
    rw [hspan] at hp
    simp only at hp
    rw [hp]
  | case4 c rest hne ih =>
    have h2 : hasPlaceholder rest = false := by
      rw [hasPlaceholder.eq_3 c rest hne] at h
      exact h
    rw [envsubst.eq_3 env c rest hne, ih h2]

/-- C6 counterexample: with the variable present in the environment
but bound to the empty string, the default of the placeholder is not
used: the expansion yields the empty string where the claim requires
the default. -/
theorem c6_counterexample :
    envsubst [(['X'], [])] ('$' :: '{' :: ['X', ':', '-', 'd', '}']) = [] ∧
    envsubst [(['X'], [])] ('$' :: '{' :: ['X', ':', '-', 'd', '}']) ≠ ['d'] := by
  have h : envsubst [(['X'], [])] ('$' :: '{' :: ['X', ':', '-', 'd', '}']) = [] := by
    simp [envsubst, spanSubst, isSubstChar, substValue, splitColonDash, lookupVar]
  refine ⟨h, ?_⟩
  rw [h]
  decide

/-- C6 amended: a plain placeholder expands to the bound value, empty
when the name is unbound; a placeholder with a default expands to the
bound value whenever the name is bound, even when that value is the
empty string, and to the default only when the name is unbound; a
string without placeholders is returned unchanged. -/
theorem c6_amended :
    (∀ (env : List (List Char × List Char)) (n : List Char),
      (∀ c ∈ n, isSubstChar c = true) → hasColonDash n = false →
      envsubst env ('$' :: '{' :: (n ++ ['}'])) = (lookupVar env n).getD []) ∧
    (∀ (env : List (List Char × List Char)) (n d : List Char),
      (∀ c ∈ n, isSubstChar c = true) → (∀ c ∈ d, isSubstChar c = true) →
      hasColonDash n = false → hasColonDash d = false →
      envsubst env ('$' :: '{' :: (n ++ ':' :: '-' :: (d ++ ['}']))) =
        (lookupVar env n).getD d) ∧
    (∀ (env : List (List Char × List Char)) (s : List Char),
      hasPlaceholder s = false → envsubst env s = s) := by
  refine ⟨?_, ?_, ?_⟩
  · intro env n hn hsep
    have h := envsubst_token env n [] hn
    rw [envsubst.eq_1] at h
    simp only [List.append_nil] at h
    rw [h, substValue_plain env n hsep]
  · intro env n d hn hd hsepn hsepd
    have hall : ∀ c ∈ n ++ ':' :: '-' :: d, isSubstChar c = true := by
      intro c hc
      simp only [List.mem_append, List.mem_cons] at hc
      rcases hc with hc | hc | hc | hc
      · exact hn c hc
      · rw [hc]; decide
      · rw [hc]; decide
      · exact hd c hc
    have h := envsubst_token env (n ++ ':' :: '-' :: d) [] hall
    rw [envsubst.eq_1] at h
    simp only [List.append_nil] at h
    have hshape : n ++ ':' :: '-' :: (d ++ ['}']) = (n ++ ':' :: '-' :: d) ++ '}' :: [] := by
      simp
    rw [hshape, h, substValue_sep env n d hsepn hsepd]
  · exact envsubst_no_placeholder

/-- C6 amended witness: the three cases at concrete inputs. -/
theorem c6_amended_witness :
    envsubst [(['F'], ['B'])] ('$' :: '{' :: (['F'] ++ ['}'])) = ['B'] ∧
    envsubst [] ('$' :: '{' :: (['X'] ++ ':' :: '-' :: (['d'] ++ ['}']))) = ['d'] ∧
    envsubst [(['F'], ['B'])] ['F', 'O', 'O'] = ['F', 'O', 'O'] := by
  refine ⟨?_, ?_, ?_⟩
  · exact (c6_amended.1 [(['F'], ['B'])] ['F'] (by decide) (by decide)).trans (by decide)
  · exact (c6_amended.2.1 [] ['X'] ['d'] (by decide) (by decide) (by decide)
      (by decide)).trans (by decide)
  · exact c6_amended.2.2 [(['F'], ['B'])] ['F', 'O', 'O']
      (by simp [hasPlaceholder, spanSubst, isSubstChar])

/-! ## Claim C9: unknown config keys -/

theorem yamlLookup_append_ne (es : List (String × Yaml)) (k : String) (v : Yaml)
    (key : String) (h : key ≠ k) :
    yamlLookup (es ++ [(k, v)]) key = yamlLookup es key := by
  induction es with
  | nil =>
    have hk : ¬ k = key := fun hh => h hh.symm
    simp [yamlLookup, hk]
  | cons e rest ih =>
    rcases e with ⟨k2, v2⟩
    by_cases h2 : k2 = key <;> simp [yamlLookup, h2, ih]

theorem parseOptionField_append {α : Type} (es : List (String × Yaml)) (k : String) (v : Yaml)
    (key : String) (parse : Yaml → Option α) (h : key ≠ k) :
    parseOptionField (es ++ [(k, v)]) key parse = parseOptionField es key parse := by
  unfold parseOptionField
  rw [yamlLookup_append_ne es k v key h]

theorem parseFieldD_append {α : Type} (es : List (String × Yaml)) (k : String) (v : Yaml)
    (key : String) (parse : Yaml → Option α) (dflt : α) (h : key ≠ k) :
    parseFieldD (es ++ [(k, v)]) key parse dflt = parseFieldD es key parse dflt := by
  unfold parseFieldD
  rw [yamlLookup_append_ne es k v key h]

/-- C9 counterexample: a well-formed config mapping with the unknown
top-level key bogus deserializes successfully; unknown keys are
ignored, not rejected, because no serde attribute forbids them. -/
theorem c9_counterexample :
    parseConfigFile (.map [("processes", .map []), ("bogus", .str "x")]) =
      some { dflt := none, configStacks := [], processes := [] } ∧
    (parseConfigFile (.map [("bogus", .str "x"), ("processes", .map [])])).isSome = true := by
  exact ⟨rfl, rfl⟩

/-- C9 amended: the derived deserializers of the config file and of
every nested section look up only their declared keys, so adding an
unknown key to any mapping leaves the parse result unchanged at every
level; unknown keys are silently ignored rather than rejected. -/
theorem c9_amended :
    (∀ (es : List (String × Yaml)) (k : String) (v : Yaml),
      k ∉ ["default", "stacks", "processes"] →
      parseConfigFile (.map (es ++ [(k, v)])) = parseConfigFile (.map es)) ∧
    (∀ (es : List (String × Yaml)) (k : String) (v : Yaml),
      k ∉ ["binary", "args", "cargo_args", "env"] →
      parseConfigProcess (.map (es ++ [(k, v)])) = parseConfigProcess (.map es)) ∧
    (∀ (es : List (String × Yaml)) (k : String) (v : Yaml),
      k ∉ ["inherits", "processes"] →
      parseConfigStack (.map (es ++ [(k, v)])) = parseConfigStack (.map es)) ∧
    (∀ (es : List (String × Yaml)) (k : String) (v : Yaml),
      k ∉ ["stack", "process"] →
      parseConfigDefault (.map (es ++ [(k, v)])) = parseConfigDefault (.map es)) := by
  refine ⟨?_, ?_, ?_, ?_⟩
  · intro es k v hk
    simp only [List.mem_cons, not_or] at hk
    obtain ⟨h1, h2, h3, -⟩ := hk
    simp only [parseConfigFile]
    rw [parseOptionField_append es k v "default" parseConfigDefault (fun hh => h1 hh.symm),
      parseFieldD_append es k v "stacks" (parseYamlMapOf parseConfigStack) []
        (fun hh => h2 hh.symm),
      yamlLookup_append_ne es k v "processes" (fun hh => h3 hh.symm)]
  · intro es k v hk
    simp only [List.mem_cons, not_or] at hk
    obtain ⟨h1, h2, h3, h4, -⟩ := hk
    simp only [parseConfigProcess]
    rw [parseOptionField_append es k v "binary" parseStr (fun hh => h1 hh.symm),
      parseFieldD_append es k v "args" parseStrList [] (fun hh => h2 hh.symm),
      parseFieldD_append es k v "cargo_args" parseStrList [] (fun hh => h3 hh.symm),
      parseFieldD_append es k v "env" parseStrMap [] (fun hh => h4 hh.symm)]
  · intro es k v hk
    simp only [List.mem_cons, not_or] at hk
    obtain ⟨h1, h2, -⟩ := hk
    simp only [parseConfigStack]
    rw [parseFieldD_append es k v "inherits" parseStrList [] (fun hh => h1 hh.symm),
      parseFieldD_append es k v "processes" parseStrList [] (fun hh => h2 hh.symm)]
  · intro es k v hk
    simp only [List.mem_cons, not_or] at hk
    obtain ⟨h1, h2, -⟩ := hk
    simp only [parseConfigDefault]
    rw [parseOptionField_append es k v "stack" parseStr (fun hh => h1 hh.symm),
      parseOptionField_append es k v "process" parseConfigProcessDefault
        (fun hh => h2 hh.symm)]

/-- C9 amended witness: the unknown key bogus does not change the
parse of a concrete config mapping. -/
theorem c9_amended_witness :
    parseConfigFile (.map ([("processes", Yaml.map [])] ++ [("bogus", Yaml.str "x")])) =
      parseConfigFile (.map [("processes", Yaml.map [])]) :=
  c9_amended.1 [("processes", Yaml.map [])] "bogus" (Yaml.str "x") (by decide)

/-! ## Claim C2: set_stacks validation order and atomicity -/

theorem set_stacks_loop_processes (procNames : List String) (ls : List Stack) (st0 : Store) :
    (set_stacks_loop procNames ls st0).1.processes = st0.processes := by
  induction ls generalizing st0 with
  | nil => rfl
  | cons stack rest ih =>
    simp only [set_stacks_loop]
    split
    · rw [ih]
      rfl
    · rfl

theorem set_stacks_loop_none_iff (procNames : List String) (ls : List Stack) (st0 : Store) :
    (set_stacks_loop procNames ls st0).2 = none ↔
      ∀ s ∈ ls, ∀ n ∈ stackReferencedNames s, n ∈ procNames := by
  induction ls generalizing st0 with
  | nil => simp [set_stacks_loop]
  | cons stack rest ih =>
    simp only [set_stacks_loop]
    split
    · rename_i hmiss
      rw [ih]
      constructor
      · intro hall s hs
        rcases List.mem_cons.mp hs with hh | hh
        · subst hh
          intro n hn
          by_contra hmem
          have : n ∈ (stackReferencedNames s).filter (fun p => p ∉ procNames) :=
            List.mem_filter.mpr ⟨hn, by simpa using hmem⟩
          rw [hmiss] at this
          simp at this
        · exact hall s hh
      · intro hall s hs
        exact hall s (List.mem_cons_of_mem stack hs)
    · rename_i hmiss
      simp only
      constructor
      · intro h
        simp at h
      · intro hall
        exfalso
        apply hmiss
        rw [List.filter_eq_nil_iff]
        intro n hn
        simpa using hall stack (List.mem_cons_self stack rest) n hn

theorem set_stacks_loop_err (procNames : List String) (ls : List Stack) (st0 : Store)
    (e : JockerError) (h : (set_stacks_loop procNames ls st0).2 = some e) :
    ∃ s ∈ ls,
      e = .processNotFound ((stackReferencedNames s).filter (fun n => n ∉ procNames)) ∧
      (stackReferencedNames s).filter (fun n => n ∉ procNames) ≠ [] := by
  induction ls generalizing st0 with
  | nil => simp [set_stacks_loop] at h
  | cons stack rest ih =>
    simp only [set_stacks_loop] at h
    revert h
    split
    · intro h
      rcases ih _ h with ⟨s, hs, he, hne⟩
      exact ⟨s, List.mem_cons_of_mem stack hs, he, hne⟩
    · rename_i hmiss
      intro h
      simp only [Option.some.injEq] at h
      exact ⟨stack, List.mem_cons_self stack rest, h.symm, hmiss⟩

theorem set_stacks_loop_stackTable (procNames : List String) (ls : List Stack) (st0 : Store)
    (h : (set_stacks_loop procNames ls st0).2 = none) :
    (set_stacks_loop procNames ls st0).1.stackTable = st0.stackTable ++ ls.map Stack.name := by
  induction ls generalizing st0 with
  | nil => simp [set_stacks_loop]
  | cons stack rest ih =>
    simp only [set_stacks_loop] at h ⊢
    revert h
    split
    · intro h
      rw [ih _ h]
      simp [insert_stack]
    · intro h
      simp at h

/-- C2 counterexample: set_stacks on a stack referencing the missing
process ghost fails with ProcessNotFound carrying ghost, yet the store
is not as it was before the call: the stack table was truncated before
validation, so the pre-existing stack row is gone. -/
theorem c2_counterexample :
    (set_stacks storeOld [⟨"s1", ["ghost"], []⟩]).2 =
      some (JockerError.processNotFound ["ghost"]) ∧
    (set_stacks storeOld [⟨"s1", ["ghost"], []⟩]).1 ≠ storeOld ∧
    (set_stacks storeOld [⟨"s1", ["ghost"], []⟩]).1.stackTable = [] := by
  exact ⟨rfl, by decide, rfl⟩

/-- C2 amended: set_stacks never touches the process table; it fails
exactly when some stack references a name missing from the process
table, with ProcessNotFound carrying the missing names of the first
failing stack; but the stack tables are truncated before any
validation and earlier stacks are inserted before later ones are
validated, so on failure the store keeps those prior writes instead of
being unchanged; on success the stack table holds exactly the given
stacks. -/
theorem c2_amended (st : Store) (stackList : List Stack) :
    (set_stacks st stackList).1.processes = st.processes ∧
    ((set_stacks st stackList).2 = none ↔
      ∀ s ∈ stackList, ∀ n ∈ stackReferencedNames s, n ∈ st.processes.map Process.name) ∧
    ((set_stacks st stackList).2 = none →
      (set_stacks st stackList).1.stackTable = stackList.map Stack.name) ∧
    (∀ e, (set_stacks st stackList).2 = some e →
      ∃ s ∈ stackList,
        e = .processNotFound
          ((stackReferencedNames s).filter (fun n => n ∉ st.processes.map Process.name)) ∧
        (stackReferencedNames s).filter (fun n => n ∉ st.processes.map Process.name) ≠ []) := by
  refine ⟨?_, ?_, ?_, ?_⟩
  · rw [set_stacks, set_stacks_loop_processes]
    rfl
  · rw [set_stacks, set_stacks_loop_none_iff]
  · intro h
    rw [set_stacks] at h ⊢
    rw [set_stacks_loop_stackTable _ _ _ h]
    rfl
  · intro e h
    rw [set_stacks] at h
    exact set_stacks_loop_err _ _ _ e h

/-- C2 amended witness: a valid stack list at a concrete store. -/
theorem c2_amended_witness :
    (set_stacks storeStopped [⟨"s1", ["p"], []⟩]).1.stackTable = ["s1"] :=
  ((c2_amended storeStopped [⟨"s1", ["p"], []⟩]).2.2.1 rfl).trans (by decide)

/-! ## Claim C8: the selection used by the supervisor operations -/

theorem map_name_filter (procs : List Process) (expected : List String) :
    (procs.filter (fun p => p.name ∈ expected)).map Process.name =
      (procs.map Process.name).filter (fun n => n ∈ expected) := by
  induction procs with
  | nil => rfl
  | cons p rest ih =>
    by_cases hp : p.name ∈ expected <;> simp [hp, ih]

theorem filter_length_of_subset (procs : List Process) (expected : List String)
    (hnd : (procs.map Process.name).Nodup) (hexp : expected.Nodup)
    (hsub : ∀ n ∈ expected, n ∈ procs.map Process.name) :
    (procs.filter (fun p => p.name ∈ expected)).length = expected.length := by
  have hperm : ((procs.map Process.name).filter (fun n => n ∈ expected)).Perm expected := by
    refine (List.perm_ext_iff_of_nodup (hnd.filter _) hexp).mpr ?_
    intro x
    simp only [List.mem_filter, decide_eq_true_eq]
    constructor
    · rintro ⟨-, hx⟩
      exact hx
    · intro hx
      exact ⟨hsub x hx, hx⟩
  have h1 : (procs.filter (fun p => p.name ∈ expected)).length =
      ((procs.map Process.name).filter (fun n => n ∈ expected)).length := by
    rw [← map_name_filter]
    simp
  rw [h1, hperm.length_eq]

theorem filter_length_ne_of_missing (procs : List Process) (expected : List String)
    (hnd : (procs.map Process.name).Nodup) (hexp : expected.Nodup)
    (n0 : String) (hn0 : n0 ∈ expected) (hmiss : n0 ∉ procs.map Process.name) :
    (procs.filter (fun p => p.name ∈ expected)).length ≠ expected.length := by
  intro heq
  have hlen2 : ((procs.map Process.name).filter (fun n => n ∈ expected)).length =
      expected.length := by
    rw [← map_name_filter]
    simpa using heq
  have hsub2 : ((procs.map Process.name).filter (fun n => n ∈ expected)) ⊆ expected := by
    intro x hx
    have := (List.mem_filter.mp hx).2
    simpa using this
  have hsup := List.subperm_of_subset (hnd.filter _) hsub2
  have hperm := hsup.perm_of_length_le (le_of_eq hlen2.symm)
  have hn02 : n0 ∈ (procs.map Process.name).filter (fun n => n ∈ expected) :=
    hperm.mem_iff.mpr hn0
  exact hmiss (List.mem_filter.mp hn02).1

theorem filter_processes_cons (st : Store) (cur : Option String) (n1 : String)
    (rest : List String) :
    filter_processes st cur (n1 :: rest) =
      (if (n1 :: rest).length ≠
          (st.processes.filter (fun p => p.name ∈ n1 :: rest)).length
       then Except.error (.processNotFound
         ((n1 :: rest).dedup.filter
           (fun n => n ∉ (st.processes.filter
             (fun p => p.name ∈ n1 :: rest)).map Process.name)))
       else Except.ok (st.processes.filter (fun p => p.name ∈ n1 :: rest))) := rfl

theorem filter_processes_none_nil (st : Store) :
    filter_processes st none [] = .ok st.processes := rfl

theorem filter_processes_stack (st : Store) (s : String) (stk : Stack)
    (hg : get_stack st s = .ok stk) :
    filter_processes st (some s) [] =
      (if stk.processes = [] then Except.ok st.processes
       else if stk.processes.length ≠
          (st.processes.filter (fun p => p.name ∈ stk.processes)).length
       then Except.error (.processNotFound
         (([] : List String).dedup.filter
           (fun n => n ∉ (st.processes.filter
             (fun p => p.name ∈ stk.processes)).map Process.name)))
       else Except.ok (st.processes.filter (fun p => p.name ∈ stk.processes))) := by
  simp only [filter_processes, hg]
  rfl

theorem get_stack_ok_nodup (st : Store) (s : String) (stk : Stack)
    (h : get_stack st s = .ok stk) : stk.processes.Nodup := by
  unfold get_stack at h
  split at h
  · simp only [Except.ok.injEq] at h
    rw [← h]
    exact List.nodup_dedup _
  · simp at h

/-- C8 counterexample: the current stack s exists and carries no
processes, yet the selection is the whole process table rather than
the empty stack set; and explicit duplicate names fail with
ProcessNotFound of the empty list even though every given name is in
the store. -/
theorem c8_counterexample :
    filter_processes storeEmptyStack (some "s") [] = .ok [stoppedNoPid] ∧
    get_stack storeEmptyStack "s" = .ok ⟨"s", [], []⟩ ∧
    stoppedNoPid.name ∉ (⟨"s", [], []⟩ : Stack).processes ∧
    filter_processes storeEmptyStack none ["p", "p"] =
      .error (.processNotFound []) := by
  exact ⟨rfl, rfl, by decide, rfl⟩

/-- C8 amended: with distinct stored names, a non-empty duplicate-free
explicit name list selects exactly the named processes, or fails with
ProcessNotFound carrying exactly the unknown names; with no explicit
names, a current stack whose process set is non-empty selects exactly
the rows whose names are in the stack set, a missing current stack
selects everything, and a current stack whose process set is empty
also selects everything (instead of nothing). -/
theorem c8_amended (st : Store) (cur : Option String) :
    (∀ (n1 : String) (rest : List String),
      (st.processes.map Process.name).Nodup → (n1 :: rest).Nodup →
      ((∀ n ∈ n1 :: rest, n ∈ st.processes.map Process.name) →
        filter_processes st cur (n1 :: rest) =
          .ok (st.processes.filter (fun p => p.name ∈ n1 :: rest))) ∧
      ((∃ n ∈ n1 :: rest, n ∉ st.processes.map Process.name) →
        ∃ miss, filter_processes st cur (n1 :: rest) =
            .error (.processNotFound miss) ∧
          ∀ n, n ∈ miss ↔ n ∈ n1 :: rest ∧ n ∉ st.processes.map Process.name)) ∧
    (∀ (s : String) (stk : Stack), cur = some s → get_stack st s = .ok stk →
      stk.processes ≠ [] → (st.processes.map Process.name).Nodup →
      (∀ n ∈ stk.processes, n ∈ st.processes.map Process.name) →
      filter_processes st cur [] =
        .ok (st.processes.filter (fun p => p.name ∈ stk.processes))) ∧
    (cur = none → filter_processes st cur [] = .ok st.processes) ∧
    (∀ (s : String) (stk : Stack), cur = some s → get_stack st s = .ok stk →
      stk.processes = [] → filter_processes st cur [] = .ok st.processes) := by
  refine ⟨?_, ?_, ?_, ?_⟩
  · intro n1 rest hnd hexp
    constructor
    · intro hsub
      rw [filter_processes_cons]
      have hlen := filter_length_of_subset st.processes (n1 :: rest) hnd hexp hsub
      have hcond : ¬ ((n1 :: rest).length ≠
          (st.processes.filter (fun p => p.name ∈ n1 :: rest)).length) :=
        fun hh => hh hlen.symm
      rw [if_neg hcond]
    · rintro ⟨n0, hn0, hn0miss⟩
      rw [filter_processes_cons]
      have hne := filter_length_ne_of_missing st.processes (n1 :: rest) hnd hexp n0 hn0 hn0miss
      rw [if_pos (fun hh => hne hh.symm)]
      refine ⟨_, rfl, ?_⟩
      intro n
      rw [hexp.dedup]
      constructor
      · intro hnmem
        have h1 := List.mem_filter.mp hnmem
        have hnot := h1.2
        rw [decide_eq_true_eq] at hnot
        refine ⟨h1.1, fun hmem2 => hnot ?_⟩
        rw [map_name_filter]
        refine List.mem_filter.mpr ⟨hmem2, ?_⟩
        rw [decide_eq_true_eq]
        exact h1.1
      · rintro ⟨hn, hnmem2⟩
        refine List.mem_filter.mpr ⟨hn, ?_⟩
        rw [decide_eq_true_eq]
        intro hcontra
        rw [map_name_filter] at hcontra
        exact hnmem2 (List.mem_filter.mp hcontra).1
  · intro s stk hcur hg hne hnd hsub
    subst hcur
    rw [filter_processes_stack st s stk hg, if_neg hne]
    have hlen := filter_length_of_subset st.processes stk.processes hnd
      (get_stack_ok_nodup st s stk hg) hsub
    have hcond : ¬ (stk.processes.length ≠
        (st.processes.filter (fun p => p.name ∈ stk.processes)).length) :=
      fun hh => hh hlen.symm
    rw [if_neg hcond]
  · intro hcur
    subst hcur
    exact filter_processes_none_nil st
  · intro s stk hcur hg hempty
    subst hcur
    rw [filter_processes_stack st s stk hg, if_pos hempty]

/-- C8 amended witness: an explicit name selection at a concrete
store. -/
theorem c8_amended_witness :
    filter_processes storeStopped none ["p"] = .ok [stoppedNoPid] :=
  (((c8_amended storeStopped none).1 "p" [] (by decide) (by decide)).1
    (by decide)).trans rfl

/-- C4 amended witness: the no-inheritance case at a concrete map. -/
theorem c4_amended_witness :
    resolve_inherited twoCycleStacks ⟨[], ["q"]⟩ = .ok ([], []) :=
  c4_amended.2.2.2 twoCycleStacks ["q"]

end Jocker

